import Mathlib

/-!
# Verification of the BongoFiscalBridge file-mailbox correlation core

A shallow embedding of the TypeScript sources of `BongoFiscalBridge`:

* `src/utils/errorParser.ts`   — the error decoder (`parseErrorFile`);
* `src/services/ecrBridge.service.ts` — the command renderer
  (`generateFileContent`), the outbox probe (`findResponseFile`) and the
  response correlator (`waitForResponse`);
* `src/controllers/print.controller.ts` — the expected-command echo built by
  the orchestrator (`sentCommand`);
* `src/utils/validator.ts` — the request-shape validator
  (`printRequestSchema`).

JavaScript strings are modelled as Lean `String` / `List Char`; JavaScript
numbers as `ℚ` (only values with terminating decimal expansion occur);
the filesystem is modelled as explicit directory listings, and the
`setInterval` polling loop as a fuel-indexed recursion plus a small-step
loop-state machine.  Only the ASCII fragment of the JavaScript whitespace
and case-conversion classes is modelled; every string the program
manipulates here is ASCII.
-/

namespace BongoBridge

/-! ## Character-level utilities (models of the JS string primitives) -/

/-- Model of the JavaScript whitespace class (`\s`, `String.prototype.trim`),
restricted to its ASCII members. -/
def jsWs (c : Char) : Bool :=
  c = ' ' || c = '\t' || c = '\n' || c = '\r' || c = '\x0b' || c = '\x0c'

/-- Decimal digit test, JS `\d` = `[0-9]`. -/
def isDig (c : Char) : Bool := '0' ≤ c && c ≤ '9'

/-- ASCII lower-casing of one character (model of `String.prototype.toLowerCase`
on the ASCII range). -/
def lowerC (c : Char) : Char :=
  if 'A' ≤ c && c ≤ 'Z' then Char.ofNat (c.toNat + 32) else c

/-- ASCII lower-casing of a character list. -/
def lowerL (l : List Char) : List Char := l.map lowerC

/-- `String.prototype.trim` (ASCII model): drop leading and trailing
whitespace. -/
def trimChars (l : List Char) : List Char :=
  ((((l.dropWhile jsWs).reverse).dropWhile jsWs)).reverse

/-- Case-sensitive test that `l` starts with `pat`. -/
def startsWithL : List Char → List Char → Bool
  | [], _ => true
  | _ :: _, [] => false
  | p :: ps, c :: cs => p = c && startsWithL ps cs

/-- `String.prototype.includes` (case-sensitive substring containment). -/
def containsSubL (pat : List Char) : List Char → Bool
  | [] => startsWithL pat []
  | l@(_ :: rest) => startsWithL pat l || containsSubL pat rest

/-- Splitting a character list at `'\n'`, the model of
`String.prototype.split('\n')`. -/
def splitLines : List Char → List (List Char)
  | [] => [[]]
  | c :: cs =>
    if c = '\n' then [] :: splitLines cs
    else
      match splitLines cs with
      | [] => [[c]]   -- dead: `splitLines` never returns `[]`
      | l :: ls => (c :: l) :: ls

/-- Join a list of character lists with a separator, the model of
`Array.prototype.join`. -/
def joinSep (sep : List Char) : List (List Char) → List Char
  | [] => []
  | [l] => l
  | l :: ls => l ++ sep ++ joinSep sep ls

/-- `String.prototype.replace(',', '.')`: replace the first comma (if any)
by a dot. -/
def replaceCommaDot : List Char → List Char
  | [] => []
  | c :: cs => if c = ',' then '.' :: cs else c :: replaceCommaDot cs

/-! ## Error decoder — model of `src/utils/errorParser.ts` -/

/-- Result structure of `parseErrorFile` (interface `ParsedError`).  The JS
field `timestamp?` is optional, hence `Option`. -/
structure ParsedError where
  originalCommand : String
  timestamp : Option String
  errorMessage : String
  rawContent : String
deriving DecidableEq

/-- The literal fallback message `'Unknown error from ECR Bridge'` used by
`parseErrorFile`. -/
def unknownError : String := "Unknown error from ECR Bridge"

/-- JS `a || b` on strings (`''` is falsy). -/
def jsOrS (a b : String) : String := if a = "" then b else a

/-- Consume one expected character. -/
def expectChar (c : Char) : List Char → Option (List Char)
  | [] => none
  | x :: xs => if x = c then some xs else none

/-- Consume a literal case-insensitively (the `/i` flag on `ERROR:`). -/
def expectCI : List Char → List Char → Option (List Char)
  | [], cs => some cs
  | _ :: _, [] => none
  | p :: ps, c :: cs => if lowerC p = lowerC c then expectCI ps cs else none

/-- The date part `\d{1,2}\/\d{1,2}\/\d{4}` of the timestamp pattern:
each `\d{m,n}` quantifier is followed by a character (`/` or whitespace) a
digit can never be, so the regex backtracking search is equivalent to a
maximal-munch digit scan with a length check.  Returns the matched span and
the rest. -/
def parseDatePart (cs : List Char) : Option (List Char × List Char) :=
  if (cs.takeWhile isDig).length < 1 || 2 < (cs.takeWhile isDig).length
  then none else
  match expectChar '/' (cs.dropWhile isDig) with
  | none => none
  | some r2 =>
    if (r2.takeWhile isDig).length < 1 || 2 < (r2.takeWhile isDig).length
    then none else
    match expectChar '/' (r2.dropWhile isDig) with
    | none => none
    | some r4 =>
      if (r4.takeWhile isDig).length ≠ 4 then none
      else
        some (cs.takeWhile isDig ++ '/' :: r2.takeWhile isDig
                ++ '/' :: r4.takeWhile isDig,
              r4.dropWhile isDig)

/-- The time part `\d{1,2}:\d{2}:\d{2}` of the timestamp pattern (same
maximal-munch argument). -/
def parseTimePart (cs : List Char) : Option (List Char × List Char) :=
  if (cs.takeWhile isDig).length < 1 || 2 < (cs.takeWhile isDig).length
  then none else
  match expectChar ':' (cs.dropWhile isDig) with
  | none => none
  | some r8 =>
    if (r8.takeWhile isDig).length ≠ 2 then none else
    match expectChar ':' (r8.dropWhile isDig) with
    | none => none
    | some r10 =>
      if (r10.takeWhile isDig).length ≠ 2 then none
      else
        some (cs.takeWhile isDig ++ ':' :: r8.takeWhile isDig
                ++ ':' :: r10.takeWhile isDig,
              r10.dropWhile isDig)

/-- `\s+` followed by a non-whitespace continuation: maximal whitespace run,
required non-empty. -/
def parseWsPlus (cs : List Char) : Option (List Char × List Char) :=
  if (cs.takeWhile jsWs).length = 0 then none
  else some (cs.takeWhile jsWs, cs.dropWhile jsWs)

/-- `[AP]M` under the `/i` flag: one of `AaPp` followed by `M` or `m`. -/
def parseAmPm (cs : List Char) : Option (List Char × List Char) :=
  match cs with
  | a :: m :: rest =>
    if (a = 'A' || a = 'a' || a = 'P' || a = 'p') && (m = 'M' || m = 'm')
    then some ([a, m], rest) else none
  | _ => none

/-- The tail `\s*-\s*ERROR:\s*(.+)` of the pattern, returning the group-2
capture.  The greedy `\s*` runs are deterministic except the last one: when
nothing follows the final whitespace run, `(.+)` backtracks `\s*` by one
character and captures that single whitespace character (JS semantics); on
an empty remainder the match fails, since `(.+)` needs a character. -/
def parseTailMsg (cs : List Char) : Option (List Char) :=
  match expectChar '-' (cs.dropWhile jsWs) with
  | none => none
  | some r16 =>
    match expectCI "ERROR:".data (r16.dropWhile jsWs) with
    | none => none
    | some r18 =>
      match r18.dropWhile jsWs, (r18.takeWhile jsWs).getLast? with
      | [], some c => some [c]
      | [], none => none
      | rest@(_ :: _), _ => some rest

/-- Attempt to match the regular expression
`(\d{1,2}\/\d{1,2}\/\d{4}\s+\d{1,2}:\d{2}:\d{2}\s+[AP]M)\s*-\s*ERROR:\s*(.+)/i`
anchored at the head of `cs`; returns the group-1 capture (the timestamp,
the concatenation of the date, whitespace, time, whitespace and AM/PM spans
exactly as they occur in the input) and the group-2 capture (the message). -/
def parseTsErr (cs : List Char) : Option (List Char × List Char) :=
  match parseDatePart cs with
  | none => none
  | some (date, r1) =>
  match parseWsPlus r1 with
  | none => none
  | some (w1, r2) =>
  match parseTimePart r2 with
  | none => none
  | some (time, r3) =>
  match parseWsPlus r3 with
  | none => none
  | some (w2, r4) =>
  match parseAmPm r4 with
  | none => none
  | some (ap, r5) =>
  match parseTailMsg r5 with
  | none => none
  | some msg => some (date ++ w1 ++ time ++ w2 ++ ap, msg)

/-- Unanchored leftmost match of the timestamp/ERROR pattern
(`String.prototype.match` without anchors tries every start position,
left to right). -/
def matchTs : List Char → Option (List Char × List Char)
  | [] => parseTsErr []
  | cs@(_ :: rest) =>
    match parseTsErr cs with
    | some r => some r
    | none => matchTs rest

/-- A line the scan loop skips: `line.match(/^-+$/) || line.length === 0`,
i.e. every character is a dash (vacuously true for the empty line). -/
def isSkip (l : List Char) : Bool := l.all (fun c => c = '-')

/-- A dash-separator line in the strict sense of `/^-+$/` (non-empty). -/
def isDashRun (l : List Char) : Bool := !l.isEmpty && l.all (fun c => c = '-')

/-- The case-sensitive test
`line.includes('ERROR:') || line.includes('error:')`. -/
def containsErrSub (l : List Char) : Bool :=
  containsSubL "ERROR:".data l || containsSubL "error:".data l

/-- First index at which `ERROR:` occurs case-insensitively (where the
separator regex `/ERROR:\s*/i` of `line.split` can start a match). -/
def findErrIdx : List Char → Option ℕ
  | [] => none
  | l@(_ :: rest) =>
    if startsWithL (lowerL "ERROR:".data) (lowerL l) then some 0
    else (findErrIdx rest).map (· + 1)

/-- Model of `line.split(/ERROR:\s*/i)[1]`: the segment strictly between
the end of the first separator match (which greedily eats the following
whitespace) and the start of the next separator match (or the end of the
line); `none` when the separator does not occur. -/
def splitSecondPart (l : List Char) : Option (List Char) :=
  match findErrIdx l with
  | none => none
  | some i =>
    match findErrIdx ((l.drop (i + 6)).dropWhile jsWs) with
    | none => some ((l.drop (i + 6)).dropWhile jsWs)
    | some j => some (((l.drop (i + 6)).dropWhile jsWs).take j)

/-- Model of `line.split(/ERROR:\s*/i)[1] || line` (an absent or empty
second part is falsy and falls back to the whole line). -/
def errorPartOf (l : List Char) : List Char :=
  match splitSecondPart l with
  | some p => if p.isEmpty then l else p
  | none => l

/-- Marker test: `line.toLowerCase().includes('execution log')`. -/
def isMarkerLine (l : List Char) : Bool :=
  containsSubL "execution log".data (lowerL l)

/-- Result of the scan over the lines after the `Execution Log` marker:
either the first strictly-formatted timestamped ERROR line (first match
wins), or the list of fallback fragments collected along the way. -/
inductive ScanResult where
  | found : List Char → List Char → ScanResult
  | fallback : List (List Char) → ScanResult
deriving DecidableEq

/-- The `for` loop of `parseErrorFile` over the lines after the marker:
skip separator lines, return immediately on the first regex match, else
collect trimmed fallback fragments from lines containing `ERROR:`/`error:`
and continue. -/
def scanExec (acc : List (List Char)) : List (List Char) → ScanResult
  | [] => .fallback acc
  | line :: ls =>
    if isSkip line then scanExec acc ls
    else
      match matchTs line with
      | some (ts, msg) => .found ts msg
      | none =>
        if containsErrSub line then
          scanExec (acc ++ [trimChars (errorPartOf line)]) ls
        else scanExec acc ls

/-- The fallback fragment one line contributes to the scan, if any: a
non-separator line containing `ERROR:` or `error:` contributes the trimmed
`split(/ERROR:\s*/i)[1] || line` value; every other line contributes
nothing.  The scan loop is equivalent to `filterMap fragScanOf` when no
line matches the timestamp pattern. -/
def fragScanOf (l : List Char) : Option (List Char) :=
  if isSkip l then none
  else if containsErrSub l then some (trimChars (errorPartOf l)) else none

/-- The non-empty trimmed lines of the input:
`content.split('\n').map(l => l.trim()).filter(l => l.length > 0)`. -/
def procLines (cs : List Char) : List (List Char) :=
  ((splitLines cs).map trimChars).filter (fun l => !l.isEmpty)

/-- Model of `parseErrorFile` from `src/utils/errorParser.ts`: decodes a
driver error blob into `ParsedError`, degrading through the three fallback
tiers of the source. -/
def parseErrorFile (errorContent : String) : ParsedError :=
  if trimChars errorContent.data = [] then
    ⟨"", none, unknownError, errorContent⟩
  else
    match (procLines errorContent.data).findIdx? isMarkerLine with
    | none =>
      ⟨String.mk ((procLines errorContent.data).headD []), none,
        jsOrS (String.mk (trimChars errorContent.data)) unknownError,
        errorContent⟩
    | some lix =>
      match scanExec [] ((procLines errorContent.data).drop (lix + 1)) with
      | .found ts msg =>
        ⟨String.mk ((procLines errorContent.data).headD []),
          some (String.mk ts), String.mk (trimChars msg), errorContent⟩
      | .fallback frags =>
        if !frags.isEmpty then
          ⟨String.mk ((procLines errorContent.data).headD []), none,
            String.mk (joinSep "; ".data frags), errorContent⟩
        else
          ⟨String.mk ((procLines errorContent.data).headD []), none,
            jsOrS (String.mk (trimChars (joinSep [' ']
              (((procLines errorContent.data).drop (lix + 1)).filter
                (fun l => !isDashRun l))))) unknownError,
            errorContent⟩

/-! ## Command renderer — model of `generateFileContent`
(`src/services/ecrBridge.service.ts`) and of the expected-command echo
built in `src/controllers/print.controller.ts` -/

/-- `enum PaymentType` of `src/utils/validator.ts`. -/
inductive PaymentType where
  | cash
  | card
deriving DecidableEq

/-- The bridge operating mode `'live' | 'test'` (`config.bridgeMode`). -/
inductive BridgeMode where
  | live
  | test
deriving DecidableEq

/-- A print request carrying the legacy triple, as destructured by
`generateFileContent` (`const { productName, duration, price, paymentType }`).
JS numbers are modelled as rationals (every price occurring here has a
terminating decimal expansion). -/
structure LegacyPrintData where
  productName : String
  duration : String
  price : ℚ
  paymentType : PaymentType
deriving DecidableEq

/-- Decimal digits of the fractional part `num/den` (long division),
fuel-bounded; the fuel is never exhausted for the terminating expansions
that JS doubles print with here. -/
def fracDigits : ℕ → ℕ → ℕ → List Char
  | 0, _, _ => []
  | _ + 1, 0, _ => []
  | fuel + 1, num, den =>
    Char.ofNat (48 + (num * 10) / den) :: fracDigits fuel ((num * 10) % den) den

/-- Model of ECMAScript `Number.prototype.toString` (radix 10) on the
rationals used to model JS numbers: integral values print without a decimal
point, otherwise the integer part is followed by `.` and the (terminating)
fractional digits. -/
def jsNumToString (q : ℚ) : String :=
  let sign := if q < 0 then "-" else ""
  let n := q.num.natAbs
  let d := q.den
  let ip := n / d
  let fr := n % d
  if fr = 0 then sign ++ toString ip
  else sign ++ toString ip ++ "." ++ String.mk (fracDigits 32 fr d)

/-- The price formatting of both generation paths:
`price.toString().replace(',', '.')`. -/
def formatPrice (q : ℚ) : String :=
  String.mk (replaceCommaDot (jsNumToString q).data)

/-- The header line: `fiscalCode ? `FISCAL;${fiscalCode}` : 'FISCAL'`
(an unset or empty configured fiscal code is falsy). -/
def headerLineOf (fiscalCode : Option String) : String :=
  match fiscalCode with
  | some fc => if fc = "" then "FISCAL" else "FISCAL;" ++ fc
  | none => "FISCAL"

/-- Model of `ECRBridgeService.generateFileContent(data, mode)`; the
configured fiscal code (`config.ecrBridge.fiscalCode`) is passed explicitly.
LIVE mode renders the Datecs fiscal format (`FISCAL`, `I;`, `P;` with
payment code CASH→'1', CARD→'2'); TEST mode the non-fiscal `TEXT`/`T;`
format. -/
def generateFileContent (data : LegacyPrintData) (mode : BridgeMode)
    (fiscalCode : Option String) : String :=
  let formattedPrice := formatPrice data.price
  match mode with
  | .live =>
    let headerLine := headerLineOf fiscalCode
    let itemLine :=
      "I;" ++ data.productName ++ " (" ++ data.duration ++ ");1;"
        ++ formattedPrice ++ ";1"
    let paymentCode := if data.paymentType = .cash then "1" else "2"
    let paymentLine := "P;" ++ paymentCode ++ ";0"
    headerLine ++ "\n" ++ itemLine ++ "\n" ++ paymentLine
  | .test =>
    let productLine :=
      "T;" ++ data.productName ++ " (" ++ data.duration ++ ")     "
        ++ formattedPrice
    String.intercalate "\n"
      ["TEXT", productLine, "T;--------------------",
        "T;TOTAL: " ++ formattedPrice,
        "T;Plata: " ++ (if data.paymentType = .cash then "CASH" else "CARD"),
        "T;Bon NON-FISCAL - TEST"]

/-- Model of the `sentCommand` echo built by `handlePrintRequest`
(`src/controllers/print.controller.ts`, lines 72–94) for cross-validation:
same header and item line as the renderer, but payment code CASH→'0',
CARD→'1' in live mode. -/
def sentCommand (data : LegacyPrintData) (mode : BridgeMode)
    (fiscalCode : Option String) : String :=
  let formattedPrice := formatPrice data.price
  match mode with
  | .live =>
    let headerLine := headerLineOf fiscalCode
    let itemLine :=
      "I;" ++ data.productName ++ " (" ++ data.duration ++ ");1;"
        ++ formattedPrice ++ ";1"
    let paymentCode := if data.paymentType = .cash then "0" else "1"
    let paymentLine := "P;" ++ paymentCode ++ ";0"
    headerLine ++ "\n" ++ itemLine ++ "\n" ++ paymentLine
  | .test =>
    let productLine :=
      "T;" ++ data.productName ++ " (" ++ data.duration ++ ")     "
        ++ formattedPrice
    String.intercalate "\n"
      ["TEXT", productLine, "T;--------------------",
        "T;TOTAL: " ++ formattedPrice,
        "T;Plata: " ++ (if data.paymentType = .cash then "CASH" else "CARD"),
        "T;Bon NON-FISCAL - TEST"]

/-- The transaction of the §8 scenario:
`{item: "Coffee", duration: "", price: 5.00, payment: CASH}`. -/
def coffeeTx : LegacyPrintData := ⟨"Coffee", "", 5, PaymentType.cash⟩

/-! ## Request validator — model of `printRequestSchema`
(`src/utils/validator.ts`) -/

/-- A raw receipt item as constrained by `receiptItemSchema`
(`quantity` has `.default(1)`, hence optional on input). -/
structure RawItem where
  name : String
  quantity : Option ℚ
  price : ℚ
deriving DecidableEq

/-- The raw shape of a print request body: the legacy fields and the items
array are all optional, `paymentType` must be one of the enum values
(guaranteed here by the type, as `z.nativeEnum` guarantees it there). -/
structure RawPrintRequest where
  productName : Option String
  duration : Option String
  price : Option ℚ
  items : Option (List RawItem)
  paymentType : PaymentType
deriving DecidableEq

/-- Field-level validity of one item: non-empty name, positive quantity
when supplied, positive (finite) price.  Finiteness of ℚ models zod's
`.finite()` on JS numbers. -/
def itemValid (it : RawItem) : Bool :=
  decide (it.name ≠ "")
    && (match it.quantity with
        | some q => decide (0 < q)
        | none => true)
    && decide (0 < it.price)

/-- The field-level checks of `printRequestSchema` before `.refine`:
each optional field, when present, must satisfy its own schema
(`.min(1)` on a string is non-emptiness, `.min(1)` on the array is
non-emptiness of the list). -/
def baseValid (r : RawPrintRequest) : Bool :=
  (match r.productName with | some s => decide (s ≠ "") | none => true)
    && (match r.duration with | some s => decide (s ≠ "") | none => true)
    && (match r.price with | some p => decide (0 < p) | none => true)
    && (match r.items with
        | some its => decide (its ≠ []) && its.all itemValid
        | none => true)

/-- The `.refine` predicate, with JS truthiness rendered exactly:
`(data.items && data.items.length > 0) ||
 (data.productName && data.duration !== undefined && data.price !== undefined)`. -/
def refineOk (r : RawPrintRequest) : Bool :=
  (match r.items with | some its => decide (0 < its.length) | none => false)
    || ((match r.productName with | some s => decide (s ≠ "") | none => false)
          && r.duration.isSome && r.price.isSome)

/-- A request parses successfully iff the field checks and the refinement
both hold (`zod` runs `.refine` only after the base object parses). -/
def printRequestParses (r : RawPrintRequest) : Bool :=
  baseValid r && refineOk r

/-- Spec-worded predicate: the item list is present and non-empty. -/
def itemListNonempty (r : RawPrintRequest) : Prop :=
  ∃ its, r.items = some its ∧ its ≠ []

/-- Spec-worded predicate: the legacy triple is present, in the sense the
`.refine` of the source tests it (truthy `productName`, `duration` and
`price` supplied). -/
def legacyTriplePresent (r : RawPrintRequest) : Prop :=
  (∃ s, r.productName = some s ∧ s ≠ "") ∧ r.duration ≠ none ∧ r.price ≠ none

/-- A request supplying both a non-empty items array and the complete
legacy triple, used to test the exactly-one reading of the invariant. -/
def bothFormsReq : RawPrintRequest :=
  ⟨some "X", some "1h", some 2, some [⟨"A", some 1, 1⟩], PaymentType.cash⟩

/-! ## Response correlator — model of `findResponseFile` / `waitForResponse`
(`src/services/ecrBridge.service.ts`) -/

/-- Terminal outcome of one correlator invocation: `resolve({success:true})`,
`resolve({success:false, details})`, or the timeout rejection. -/
inductive Outcome where
  | succeeded : Outcome
  | failed : String → Outcome
  | timedOut : String → Outcome
deriving DecidableEq

/-- Whether an outcome is the FAILED resolution. -/
def isFailed : Outcome → Bool
  | .failed _ => true
  | _ => false

/-- Whether an outcome is the TIMED_OUT rejection. -/
def isTimedOut : Outcome → Bool
  | .timedOut _ => true
  | _ => false

/-- One observed filesystem state: the listings of the two outbox
directories and the readable content of error files (by name);
`errRead f = none` models a failing `readFileSafe`. -/
structure FSState where
  errEntries : List String
  okEntries : List String
  errRead : String → Option String

/-- ASCII model of `filename.toLowerCase()`. -/
def lowerS (s : String) : String := String.mk (lowerL s.data)

/-- Model of `findResponseFile(dirPath, filename)`: an exact-name existence
check first, then a case-insensitive linear scan of the directory listing;
returns the matched entry name (the path-join with the directory is
abstracted away). -/
def findResponseFile (entries : List String) (filename : String) :
    Option String :=
  if filename ∈ entries then some filename
  else entries.find? (fun f => lowerS f = lowerS filename)

/-- Boolean form of "the directory contains an artifact matching the name
case-insensitively". -/
def hasMatch (entries : List String) (filename : String) : Bool :=
  entries.any (fun f => lowerS f = lowerS filename)

/-- The error details computed in the error branches of `waitForResponse`:
`parsedError?.errorMessage || errorContent || 'Unknown error from ECR
Bridge'`, where `parsedError` is `parseErrorFile(errorContent)` when the
content is truthy. -/
def errDetails (content? : Option String) : String :=
  match content? with
  | none => unknownError
  | some c =>
    if c = "" then unknownError
    else jsOrS (parseErrorFile c).errorMessage (jsOrS c unknownError)

/-- The message of the timeout rejection
(`Timeout waiting for response after ${timeout}ms. File: ${filename}`). -/
def timeoutMsg (timeout : ℕ) (filename : String) : String :=
  "Timeout waiting for response after " ++ toString timeout
    ++ "ms. File: " ++ filename

/-- The body of one `setInterval` callback firing at tick `k` (elapsed time
`200·k` ms under the ideal periodic clock): on reaching the deadline a final
probe of both directories, error-outbox first, resolving
FAILED/SUCCEEDED/TIMED_OUT; before the deadline a probe of the error-outbox,
then of the success-outbox, `none` meaning "continue polling".  The
`expectedCommand` cross-check of the source only logs and cannot influence
the outcome, so it does not appear. -/
def pollTick (fs : FSState) (filename : String) (timeout k : ℕ) :
    Option Outcome :=
  if 200 * k ≥ timeout then
    some (match findResponseFile fs.errEntries filename with
      | some errFile => .failed (errDetails (fs.errRead errFile))
      | none =>
        match findResponseFile fs.okEntries filename with
        | some _ => .succeeded
        | none => .timedOut (timeoutMsg timeout filename))
  else
    match findResponseFile fs.errEntries filename with
    | some errFile => some (.failed (errDetails (fs.errRead errFile)))
    | none =>
      match findResponseFile fs.okEntries filename with
      | some _ => some .succeeded
      | none => none

/-- The directories probed by the callback at tick `k`, in order: at the
deadline both are probed (error-outbox first); before it the success-outbox
is probed only when the error-outbox probe missed. -/
inductive ProbeDir where
  | errOut
  | okOut
deriving DecidableEq

/-- Probe log of one callback firing (same control flow as `pollTick`). -/
def pollProbes (fs : FSState) (filename : String) (timeout k : ℕ) :
    List ProbeDir :=
  if 200 * k ≥ timeout then [ProbeDir.errOut, ProbeDir.okOut]
  else
    match findResponseFile fs.errEntries filename with
    | some _ => [ProbeDir.errOut]
    | none => [ProbeDir.errOut, ProbeDir.okOut]

/-- The polling loop: fire the callback at ticks `k, k+1, …` until it
resolves.  The fuel only serves termination; with the fuel `waitForResponse`
supplies, the deadline branch fires before it runs out (the `timedOut`
default of the base case is dead code). -/
def pollLoop (fsSeq : ℕ → FSState) (filename : String) (timeout : ℕ) :
    ℕ → ℕ → Outcome
  | 0, k =>
    (pollTick (fsSeq k) filename timeout k).getD
      (.timedOut (timeoutMsg timeout filename))
  | fuel + 1, k =>
    match pollTick (fsSeq k) filename timeout k with
    | some o => o
    | none => pollLoop fsSeq filename timeout fuel (k + 1)

/-- Model of `waitForResponse(filename, expectedCommand?, timeout)`:
polls the two outbox directories every 200 ms from tick 1 on, under the
filesystem evolution `fsSeq` (the state observed at tick `k`).  The
`expectedCommand` argument is carried for fidelity with the source
signature; the source uses it only to log an advisory mismatch warning. -/
def waitForResponse (fsSeq : ℕ → FSState) (filename : String)
    (_expectedCommand : Option String) (timeout : ℕ) : Outcome :=
  pollLoop fsSeq filename timeout (timeout / 200) 1

/-- A filesystem that does not change while the correlator polls. -/
def constFS (fs : FSState) : ℕ → FSState := fun _ => fs

/-- The first tick at which `elapsed ≥ timeout` holds, i.e. the tick of the
final probe (`max` because the first firing is at tick 1). -/
def deadlineTick (timeout : ℕ) : ℕ := max 1 ((timeout + 199) / 200)

/-- One request currently being polled, as seen by the `setInterval`
machinery: the next tick to fire, the promise resolution, whether
`clearInterval` has run, and how many directory probes have been issued. -/
structure LoopState where
  tick : ℕ
  resolved : Option Outcome
  cleared : Bool
  probes : ℕ
deriving DecidableEq

/-- The initial loop state: first firing at tick 1, promise pending. -/
def initLoop : LoopState := ⟨1, none, false, 0⟩

/-- One step of the `setInterval` machinery: a cleared interval never fires
again (and the promise, already settled, cannot change); otherwise the
callback fires, issues its probes, and — in every resolving branch of the
source — calls `clearInterval` before resolving. -/
def stepLoop (fsSeq : ℕ → FSState) (filename : String) (timeout : ℕ)
    (s : LoopState) : LoopState :=
  if s.cleared then s
  else
    let probed := s.probes + (pollProbes (fsSeq s.tick) filename timeout s.tick).length
    match pollTick (fsSeq s.tick) filename timeout s.tick with
    | some o => ⟨s.tick + 1, some o, true, probed⟩
    | none => ⟨s.tick + 1, none, false, probed⟩

/-- The loop state after `n` steps. -/
def loopAt (fsSeq : ℕ → FSState) (filename : String) (timeout : ℕ)
    (n : ℕ) : LoopState :=
  (stepLoop fsSeq filename timeout)^[n] initLoop

/-- Concrete fixture: both outbox directories hold an artifact matching
`bon_20250101120000.txt` case-insensitively; reading the error file fails. -/
def fsBothDirs : FSState :=
  ⟨["BON_20250101120000.TXT"], ["bon_20250101120000.txt"], fun _ => none⟩

/-- Concrete fixture: both outbox directories stay empty. -/
def fsEmptyDirs : FSState := ⟨[], [], fun _ => none⟩

/-! ## Generic lemmas about the utilities -/

theorem splitLines_ne_nil (cs : List Char) : splitLines cs ≠ [] := by
  induction cs with
  | nil => simp [splitLines]
  | cons c cs ih =>
    simp only [splitLines]
    split
    · simp
    · match h : splitLines cs with
      | [] => exact absurd h ih
      | l :: ls => simp

theorem mem_of_mem_splitLines {cs : List Char} {l : List Char}
    (hl : l ∈ splitLines cs) : ∀ c ∈ l, c ∈ cs := by
  induction cs generalizing l with
  | nil =>
    simp [splitLines] at hl
    simp [hl]
  | cons a cs ih =>
    intro c hc
    simp only [splitLines] at hl
    by_cases ha : a = '\n'
    · rw [if_pos ha] at hl
      rcases List.mem_cons.1 hl with h1 | h1
      · subst h1; simp at hc
      · exact List.mem_cons_of_mem _ (ih h1 c hc)
    · rw [if_neg ha] at hl
      match h : splitLines cs with
      | [] => exact absurd h (splitLines_ne_nil cs)
      | m :: ms =>
        rw [h] at hl
        rcases List.mem_cons.1 hl with h1 | h1
        · subst h1
          rcases List.mem_cons.1 hc with h2 | h2
          · subst h2; exact List.mem_cons_self c cs
          · exact List.mem_cons_of_mem _ (ih (h ▸ List.mem_cons_self m ms) c h2)
        · exact List.mem_cons_of_mem _ (ih (h ▸ List.mem_cons_of_mem m h1) c hc)

theorem dropWhile_eq_nil_iff' {p : Char → Bool} {l : List Char} :
    l.dropWhile p = [] ↔ ∀ c ∈ l, p c := by
  induction l with
  | nil => simp
  | cons a l ih =>
    by_cases h : p a
    · simp [List.dropWhile, h, ih]
    · simp [List.dropWhile, h]

theorem mem_dropWhile_imp {p : Char → Bool} {l : List Char} {c : Char}
    (h : c ∈ l.dropWhile p) : c ∈ l := by
  have hsplit := List.takeWhile_append_dropWhile (p := p) (l := l)
  rw [← hsplit]
  exact List.mem_append.2 (Or.inr h)

theorem trimChars_eq_nil_iff {l : List Char} :
    trimChars l = [] ↔ ∀ c ∈ l, jsWs c := by
  unfold trimChars
  rw [List.reverse_eq_nil_iff, dropWhile_eq_nil_iff']
  constructor
  · intro h c hc
    by_cases hw : jsWs c
    · exact hw
    · exfalso
      have hc1 : c ∈ l.dropWhile jsWs := by
        have hsplit := List.takeWhile_append_dropWhile (p := jsWs) (l := l)
        have hc' : c ∈ l.takeWhile jsWs ++ l.dropWhile jsWs := by
          rw [hsplit]; exact hc
        rcases List.mem_append.1 hc' with h1 | h1
        · exact absurd (List.mem_takeWhile_imp h1) hw
        · exact h1
      exact hw (h c (List.mem_reverse.2 hc1))
  · intro h c hc
    exact h c (mem_dropWhile_imp (List.mem_reverse.1 hc))

end BongoBridge

namespace BongoBridge

/-! ## Lemmas about the outbox probe and the polling loop -/

theorem findResponseFile_of_hasMatch {entries : List String} {n : String}
    (h : hasMatch entries n = true) :
    ∃ f, findResponseFile entries n = some f := by
  unfold findResponseFile
  by_cases hc : n ∈ entries
  · exact ⟨n, by rw [if_pos hc]⟩
  · rw [if_neg hc]
    unfold hasMatch at h
    rw [List.any_eq_true] at h
    obtain ⟨f, hf, hp⟩ := h
    have hs : (entries.find? (fun f => lowerS f = lowerS n)).isSome := by
      rw [List.find?_isSome]
      exact ⟨f, hf, hp⟩
    obtain ⟨g, hg⟩ := Option.isSome_iff_exists.1 hs
    exact ⟨g, hg⟩

theorem findResponseFile_eq_none {entries : List String} {n : String}
    (h : hasMatch entries n = false) :
    findResponseFile entries n = none := by
  unfold findResponseFile
  unfold hasMatch at h
  have hall : ∀ f ∈ entries, ¬ (lowerS f = lowerS n) := by
    intro f hf heq
    have hany : entries.any (fun f => lowerS f = lowerS n) = true :=
      List.any_eq_true.2 ⟨f, hf, by simpa using heq⟩
    rw [h] at hany
    exact Bool.false_ne_true hany
  have hc : n ∉ entries := fun hmem => hall n hmem rfl
  rw [if_neg hc]
  exact List.find?_eq_none.2 (by
    intro f hf
    simpa using hall f hf)

theorem pollTick_failed {fs : FSState} {fn g : String} (t k : ℕ)
    (h : findResponseFile fs.errEntries fn = some g) :
    pollTick fs fn t k = some (.failed (errDetails (fs.errRead g))) := by
  unfold pollTick
  by_cases hd : 200 * k ≥ t
  · rw [if_pos hd, h]
  · rw [if_neg hd, h]

theorem pollTick_none_of_noMatch {fs : FSState} {fn : String} {t k : ℕ}
    (he : findResponseFile fs.errEntries fn = none)
    (ho : findResponseFile fs.okEntries fn = none)
    (hk : ¬ 200 * k ≥ t) :
    pollTick fs fn t k = none := by
  unfold pollTick
  rw [if_neg hk, he, ho]

theorem pollTick_deadline_timedOut {fs : FSState} {fn : String} {t k : ℕ}
    (he : findResponseFile fs.errEntries fn = none)
    (ho : findResponseFile fs.okEntries fn = none)
    (hk : 200 * k ≥ t) :
    pollTick fs fn t k = some (.timedOut (timeoutMsg t fn)) := by
  unfold pollTick
  rw [if_pos hk, he, ho]

theorem pollTick_isSome_at_deadline (fs : FSState) (fn : String) {t k : ℕ}
    (hk : 200 * k ≥ t) :
    (pollTick fs fn t k).isSome := by
  unfold pollTick
  rw [if_pos hk]
  rfl

theorem deadlineTick_ge (t : ℕ) : 200 * deadlineTick t ≥ t := by
  unfold deadlineTick
  omega

theorem deadlineTick_pos (t : ℕ) : 1 ≤ deadlineTick t := by
  unfold deadlineTick
  omega

/-- C1 helper: whenever the error probe hits, the loop resolves FAILED at
the very first tick. -/
theorem pollLoop_failed_of_err {fs : FSState} {fn g : String} (t : ℕ)
    (h : findResponseFile fs.errEntries fn = some g) :
    ∀ fuel k, pollLoop (constFS fs) fn t fuel k
      = .failed (errDetails (fs.errRead g)) := by
  intro fuel k
  cases fuel with
  | zero =>
    unfold pollLoop
    rw [show (constFS fs) k = fs from rfl, pollTick_failed t k h]
    rfl
  | succ fuel =>
    unfold pollLoop
    rw [show (constFS fs) k = fs from rfl, pollTick_failed t k h]

theorem pollLoop_timedOut_of_none {fs : FSState} {fn : String} (t : ℕ)
    (he : findResponseFile fs.errEntries fn = none)
    (ho : findResponseFile fs.okEntries fn = none) :
    ∀ fuel k, pollLoop (constFS fs) fn t fuel k
      = .timedOut (timeoutMsg t fn) := by
  intro fuel
  induction fuel with
  | zero =>
    intro k
    unfold pollLoop
    by_cases hk : 200 * k ≥ t
    · rw [show (constFS fs) k = fs from rfl,
        pollTick_deadline_timedOut he ho hk]
      rfl
    · rw [show (constFS fs) k = fs from rfl,
        pollTick_none_of_noMatch he ho hk]
      rfl
  | succ fuel ih =>
    intro k
    unfold pollLoop
    by_cases hk : 200 * k ≥ t
    · rw [show (constFS fs) k = fs from rfl,
        pollTick_deadline_timedOut he ho hk]
    · rw [show (constFS fs) k = fs from rfl,
        pollTick_none_of_noMatch he ho hk]
      exact ih (k + 1)

end BongoBridge

namespace BongoBridge

/-! ## Claim C1 — error-priority of the correlator -/

/-- C1: in every polling cycle and in the final deadline probe the
error-outbox is probed before the success-outbox, and for every filesystem
state in which both outbox directories contain an artifact matching the
name case-insensitively, the correlator resolves FAILED, never SUCCEEDED. -/
theorem correlator_error_priority (fs : FSState) (filename : String)
    (expected : Option String) (timeout : ℕ)
    (herr : hasMatch fs.errEntries filename = true)
    (hok : hasMatch fs.okEntries filename = true) :
    isFailed (waitForResponse (constFS fs) filename expected timeout) = true
      ∧ waitForResponse (constFS fs) filename expected timeout
          ≠ Outcome.succeeded
      ∧ ∀ (gs : FSState) (k : ℕ),
          (pollProbes gs filename timeout k).head? = some ProbeDir.errOut := by
  obtain ⟨g, hg⟩ := findResponseFile_of_hasMatch herr
  have hrun : waitForResponse (constFS fs) filename expected timeout
      = .failed (errDetails (fs.errRead g)) := by
    unfold waitForResponse
    exact pollLoop_failed_of_err timeout hg (timeout / 200) 1
  refine ⟨by rw [hrun]; rfl, by simp [hrun], ?_⟩
  intro gs k
  unfold pollProbes
  by_cases hk : 200 * k ≥ timeout
  · rw [if_pos hk]; rfl
  · rw [if_neg hk]
    cases findResponseFile gs.errEntries filename <;> rfl

/-- Witness for C1: with `fsBothDirs` (a case-variant artifact in the
error-outbox and an exact-name artifact in the success-outbox), the
hypotheses hold and the invocation resolves FAILED. -/
theorem correlator_error_priority_witness :
    hasMatch fsBothDirs.errEntries "bon_20250101120000.txt" = true
      ∧ hasMatch fsBothDirs.okEntries "bon_20250101120000.txt" = true
      ∧ isFailed (waitForResponse (constFS fsBothDirs)
          "bon_20250101120000.txt" none 1000) = true :=
  ⟨by decide, by decide,
    (correlator_error_priority fsBothDirs "bon_20250101120000.txt" none 1000
      (by decide) (by decide)).1⟩

/-! ## Claim C3 — final probe and distinct TIMED_OUT resolution -/

/-- C3: when neither outbox ever contains a matching artifact, the
correlator performs the final deadline probe of both directories
(error-outbox first) and resolves TIMED_OUT, an outcome distinct from
FAILED. -/
theorem correlator_timeout (fs : FSState) (filename : String)
    (expected : Option String) (timeout : ℕ)
    (herr : hasMatch fs.errEntries filename = false)
    (hok : hasMatch fs.okEntries filename = false) :
    waitForResponse (constFS fs) filename expected timeout
        = .timedOut (timeoutMsg timeout filename)
      ∧ pollProbes fs filename timeout (deadlineTick timeout)
          = [ProbeDir.errOut, ProbeDir.okOut]
      ∧ isTimedOut (waitForResponse (constFS fs) filename expected timeout)
          = true
      ∧ isFailed (waitForResponse (constFS fs) filename expected timeout)
          = false
      ∧ ∀ d, Outcome.timedOut (timeoutMsg timeout filename)
          ≠ Outcome.failed d := by
  have he := findResponseFile_eq_none herr
  have ho := findResponseFile_eq_none hok
  have hrun : waitForResponse (constFS fs) filename expected timeout
      = .timedOut (timeoutMsg timeout filename) := by
    unfold waitForResponse
    exact pollLoop_timedOut_of_none timeout he ho (timeout / 200) 1
  refine ⟨hrun, ?_, by rw [hrun]; rfl, by rw [hrun]; rfl, by simp⟩
  unfold pollProbes
  rw [if_pos (deadlineTick_ge timeout)]

/-- Witness for C3: with both outboxes empty, the invocation resolves to
the TIMED_OUT rejection. -/
theorem correlator_timeout_witness :
    hasMatch fsEmptyDirs.errEntries "bon_1.txt" = false
      ∧ hasMatch fsEmptyDirs.okEntries "bon_1.txt" = false
      ∧ waitForResponse (constFS fsEmptyDirs) "bon_1.txt" none 1000
          = .timedOut (timeoutMsg 1000 "bon_1.txt") :=
  ⟨by decide, by decide,
    (correlator_timeout fsEmptyDirs "bon_1.txt" none 1000
      (by decide) (by decide)).1⟩

/-! ## Claim C4 — the expected-command echo is not the rendered command -/

/-- C4 (code bug): for the live-mode Coffee request with no fiscal code,
the renderer writes payment line `P;1;0` (CASH→'1') while the orchestrator
builds the echo with payment line `P;0;0` (CASH→'0'); the echo is not
byte-identical to the artifact content. -/
theorem echo_differs_from_artifact :
    generateFileContent coffeeTx .live none
        = "FISCAL\nI;Coffee ();1;5;1\nP;1;0"
      ∧ sentCommand coffeeTx .live none
        = "FISCAL\nI;Coffee ();1;5;1\nP;0;0"
      ∧ generateFileContent coffeeTx .live none
        ≠ sentCommand coffeeTx .live none := by
  refine ⟨by decide, by decide, by decide⟩

/-! ## Claim C6 — empty/whitespace-only input fallback -/

/-- C6 (amended): for every input that is empty or whitespace-only, the
decoder returns an empty original command, no timestamp, the literal
fallback message `"Unknown error from ECR Bridge"`, and the raw input. -/
theorem parse_empty_input (s : String) (h : trimChars s.data = []) :
    parseErrorFile s = ⟨"", none, unknownError, s⟩ := by
  unfold parseErrorFile
  rw [if_pos h]

/-- Counterexample for C6 as stated: on the empty input the error message
is `"Unknown error from ECR Bridge"`, not the literal `"Unknown error"`. -/
theorem parse_empty_input_counterexample :
    (parseErrorFile "").errorMessage = "Unknown error from ECR Bridge"
      ∧ (parseErrorFile "").errorMessage ≠ "Unknown error" := by
  refine ⟨by decide, by decide⟩

/-- Witness for C6: a whitespace-only input satisfies the hypothesis and
gets the fallback result. -/
theorem parse_empty_input_witness :
    trimChars "  \t ".data = []
      ∧ parseErrorFile "  \t " = ⟨"", none, unknownError, "  \t "⟩ :=
  ⟨by decide, parse_empty_input "  \t " (by decide)⟩

/-! ## Claim C8 — bytes of the live-mode Coffee artifact -/

/-- Counterexample for C8 as stated: the artifact bytes are not the claimed
string with the price field `5.00`. -/
theorem coffee_artifact_counterexample :
    generateFileContent coffeeTx .live none
      ≠ "FISCAL\nI;Coffee ();1;5.00;1\nP;1;0" := by
  decide

/-- C8 (amended): the live-mode Coffee artifact with no fiscal code renders
the JS number 5.00 as `5` (ECMAScript `toString` of an integral number), so
the bytes are `FISCAL\nI;Coffee ();1;5;1\nP;1;0`. -/
theorem coffee_artifact_bytes :
    generateFileContent coffeeTx .live none
      = "FISCAL\nI;Coffee ();1;5;1\nP;1;0" := by
  decide

/-! ## Claim C9 — the validation invariant is an OR, not an XOR -/

/-- Counterexample for C9 as stated: a request supplying both a non-empty
items array and the complete legacy triple passes validation instead of
being rejected. -/
theorem validator_both_forms_accepted :
    printRequestParses bothFormsReq = true
      ∧ bothFormsReq.items = some [⟨"A", some 1, 1⟩]
      ∧ bothFormsReq.productName = some "X"
      ∧ bothFormsReq.duration = some "1h"
      ∧ bothFormsReq.price = some 2 := by
  refine ⟨by decide, by decide, by decide, by decide, by decide⟩

/-- The `.refine` predicate accepts exactly when the item list is
non-empty or the legacy triple is present (inclusive disjunction). -/
theorem refineOk_iff (r : RawPrintRequest) :
    refineOk r = true ↔ itemListNonempty r ∨ legacyTriplePresent r := by
  unfold refineOk itemListNonempty legacyTriplePresent
  obtain ⟨pn, du, pr, its, pt⟩ := r
  cases its <;> cases pn <;> cases du <;> cases pr <;>
    simp [List.length_pos, Option.isSome]

/-- C9 (amended): a request passes validation iff the field-level checks
hold and at least one of the two forms (non-empty item list, legacy
triple) is present. -/
theorem validator_accepts_iff (r : RawPrintRequest) :
    printRequestParses r = true
      ↔ baseValid r = true ∧ (itemListNonempty r ∨ legacyTriplePresent r) := by
  unfold printRequestParses
  rw [Bool.and_eq_true]
  exact and_congr Iff.rfl (refineOk_iff r)

end BongoBridge

namespace BongoBridge

/-! ## Claim C2 — exactly one resolution, immediate teardown -/

theorem loopAt_zero (fsSeq : ℕ → FSState) (filename : String) (timeout : ℕ) :
    loopAt fsSeq filename timeout 0 = initLoop := rfl

theorem loopAt_succ (fsSeq : ℕ → FSState) (filename : String) (timeout : ℕ)
    (n : ℕ) :
    loopAt fsSeq filename timeout (n + 1)
      = stepLoop fsSeq filename timeout (loopAt fsSeq filename timeout n) :=
  Function.iterate_succ_apply' _ _ _

theorem stepLoop_of_cleared {fsSeq : ℕ → FSState} {filename : String}
    {timeout : ℕ} {s : LoopState} (h : s.cleared = true) :
    stepLoop fsSeq filename timeout s = s := by
  unfold stepLoop
  rw [if_pos h]

/-- Invariant of the interval machinery: while the promise is pending the
interval is armed and the next tick is `n + 1`; once resolved, the interval
is cleared. -/
theorem loopAt_inv (fsSeq : ℕ → FSState) (filename : String) (timeout : ℕ) :
    ∀ n, ((loopAt fsSeq filename timeout n).resolved = none
            ∧ (loopAt fsSeq filename timeout n).cleared = false
            ∧ (loopAt fsSeq filename timeout n).tick = n + 1)
      ∨ ((loopAt fsSeq filename timeout n).resolved.isSome
            ∧ (loopAt fsSeq filename timeout n).cleared = true) := by
  intro n
  induction n with
  | zero => exact Or.inl ⟨rfl, rfl, rfl⟩
  | succ n ih =>
    rw [loopAt_succ]
    rcases ih with ⟨hres, hclr, htick⟩ | ⟨hres, hclr⟩
    · unfold stepLoop
      rw [if_neg (by simp [hclr])]
      cases hpoll : pollTick (fsSeq (loopAt fsSeq filename timeout n).tick)
          filename timeout (loopAt fsSeq filename timeout n).tick with
      | none => exact Or.inl ⟨rfl, rfl, by simp [htick]⟩
      | some o => exact Or.inr ⟨rfl, rfl⟩
    · rw [stepLoop_of_cleared hclr]
      exact Or.inr ⟨hres, hclr⟩

theorem loopAt_deadline_isSome (fsSeq : ℕ → FSState) (filename : String)
    (timeout : ℕ) :
    (loopAt fsSeq filename timeout (deadlineTick timeout)).resolved.isSome := by
  by_contra h
  obtain ⟨m, hm⟩ : ∃ m, deadlineTick timeout = m + 1 :=
    ⟨deadlineTick timeout - 1, by have := deadlineTick_pos timeout; omega⟩
  rcases loopAt_inv fsSeq filename timeout m with ⟨hres, hclr, htick⟩ | ⟨hres, hclr⟩
  · have hstep := loopAt_succ fsSeq filename timeout m
    have hsome := pollTick_isSome_at_deadline (fsSeq (m + 1)) filename
      (t := timeout) (k := m + 1) (by have := deadlineTick_ge timeout; omega)
    obtain ⟨o, ho⟩ := Option.isSome_iff_exists.1 hsome
    apply h
    rw [hm, hstep]
    unfold stepLoop
    rw [if_neg (by simp [hclr]), htick, ho]
    rfl
  · apply h
    rw [hm, loopAt_succ, stepLoop_of_cleared hclr]
    exact hres

/-- While the promise is pending, each step fires the callback at the next
tick; the callback result determines whether the step resolves. -/
theorem loopAt_poll_of_pending {fsSeq : ℕ → FSState} {filename : String}
    {timeout : ℕ} {m : ℕ}
    (hres : (loopAt fsSeq filename timeout m).resolved = none)
    (hclr : (loopAt fsSeq filename timeout m).cleared = false)
    (htick : (loopAt fsSeq filename timeout m).tick = m + 1) :
    (loopAt fsSeq filename timeout (m + 1)).resolved
      = pollTick (fsSeq (m + 1)) filename timeout (m + 1) := by
  rw [loopAt_succ]
  unfold stepLoop
  rw [if_neg (by simp [hclr]), htick]
  cases hpoll : pollTick (fsSeq (m + 1)) filename timeout (m + 1) <;> rfl

/-- Running the fueled loop when the callback first resolves at tick `k*`. -/
theorem pollLoop_run (fsSeq : ℕ → FSState) (filename : String) (timeout : ℕ)
    (kstar : ℕ) (o : Outcome)
    (hnone : ∀ j, 1 ≤ j → j < kstar → pollTick (fsSeq j) filename timeout j = none)
    (hsome : pollTick (fsSeq kstar) filename timeout kstar = some o) :
    ∀ fuel k, 1 ≤ k → k ≤ kstar → kstar ≤ k + fuel →
      pollLoop fsSeq filename timeout fuel k = o := by
  intro fuel
  induction fuel with
  | zero =>
    intro k hk1 hk2 hk3
    have hk : k = kstar := by omega
    subst hk
    unfold pollLoop
    rw [hsome]
    rfl
  | succ fuel ih =>
    intro k hk1 hk2 hk3
    by_cases hk : k = kstar
    · subst hk
      unfold pollLoop
      rw [hsome]
    · unfold pollLoop
      rw [hnone k hk1 (by omega)]
      exact ih (k + 1) (by omega) (by omega) (by omega)

/-- C2: every invocation of the correlator resolves exactly once — there is
a step `n` (no later than the deadline tick) at which the promise becomes
resolved with one of the terminal outcomes, the promise was pending at every
earlier step, from step `n` on the loop state never changes again (no
further probe, read, or transition: the interval is cleared), and the
resolved outcome is the one `waitForResponse` returns. -/
theorem correlator_single_resolution (fsSeq : ℕ → FSState) (filename : String)
    (expected : Option String) (timeout : ℕ) :
    ∃ n o, n ≤ deadlineTick timeout
      ∧ (loopAt fsSeq filename timeout n).resolved = some o
      ∧ (∀ m, m < n → (loopAt fsSeq filename timeout m).resolved = none)
      ∧ (∀ m, n ≤ m →
          loopAt fsSeq filename timeout m = loopAt fsSeq filename timeout n)
      ∧ waitForResponse fsSeq filename expected timeout = o := by
  have hP : ∃ n, (loopAt fsSeq filename timeout n).resolved.isSome :=
    ⟨deadlineTick timeout, loopAt_deadline_isSome fsSeq filename timeout⟩
  classical
  let n := Nat.find hP
  have hPn : (loopAt fsSeq filename timeout n).resolved.isSome := Nat.find_spec hP
  have hmin : ∀ m, m < n → ¬ (loopAt fsSeq filename timeout m).resolved.isSome :=
    fun m hm => Nat.find_min hP hm
  have hle : n ≤ deadlineTick timeout :=
    Nat.find_min' hP (loopAt_deadline_isSome fsSeq filename timeout)
  obtain ⟨o, ho⟩ := Option.isSome_iff_exists.1 hPn
  have hnone : ∀ m, m < n → (loopAt fsSeq filename timeout m).resolved = none :=
    fun m hm => Option.not_isSome_iff_eq_none.1 (hmin m hm)
  have hcleared : (loopAt fsSeq filename timeout n).cleared = true := by
    rcases loopAt_inv fsSeq filename timeout n with ⟨hres, _, _⟩ | ⟨_, hclr⟩
    · rw [hres] at ho; exact absurd ho (by simp)
    · exact hclr
  have hstable : ∀ m, n ≤ m →
      loopAt fsSeq filename timeout m = loopAt fsSeq filename timeout n := by
    intro m hm
    induction m, hm using Nat.le_induction with
    | base => rfl
    | succ m hm ih =>
      rw [loopAt_succ, ih, stepLoop_of_cleared hcleared]
  have hn1 : 1 ≤ n := by
    rcases Nat.eq_zero_or_pos n with h0 | h1
    · exfalso
      have := hPn
      rw [h0] at this
      simp [loopAt_zero, initLoop] at this
    · exact h1
  -- the callback was pending before `n` and resolved exactly at tick `n`
  have hleft : ∀ m, m < n →
      (loopAt fsSeq filename timeout m).resolved = none
        ∧ (loopAt fsSeq filename timeout m).cleared = false
        ∧ (loopAt fsSeq filename timeout m).tick = m + 1 := by
    intro m hm
    rcases loopAt_inv fsSeq filename timeout m with hl | ⟨hres, _⟩
    · exact hl
    · exact absurd hres (hmin m hm)
  have hpollnone : ∀ j, 1 ≤ j → j < n →
      pollTick (fsSeq j) filename timeout j = none := by
    intro j hj1 hj2
    obtain ⟨m, hm⟩ : ∃ m, j = m + 1 := ⟨j - 1, by omega⟩
    subst hm
    obtain ⟨hres, hclr, htick⟩ := hleft m (by omega)
    have := loopAt_poll_of_pending hres hclr htick
    rw [hnone (m + 1) hj2] at this
    exact this.symm
  have hpollsome : pollTick (fsSeq n) filename timeout n = some o := by
    obtain ⟨m, hm⟩ : ∃ m, n = m + 1 := ⟨n - 1, by omega⟩
    obtain ⟨hres, hclr, htick⟩ := hleft m (by omega)
    have := loopAt_poll_of_pending hres hclr htick
    rw [← hm] at this
    rw [← this, ho]
  have hrun : waitForResponse fsSeq filename expected timeout = o := by
    unfold waitForResponse
    apply pollLoop_run fsSeq filename timeout n o hpollnone hpollsome
      (timeout / 200) 1 le_rfl hn1
    have := hle
    unfold deadlineTick at this
    omega
  exact ⟨n, o, hle, ho, hnone, hstable, hrun⟩

end BongoBridge


namespace BongoBridge

/-! ## Lemmas about the timestamp matcher -/

theorem expectChar_suffix {c : Char} {l r : List Char}
    (h : expectChar c l = some r) : r <:+ l := by
  cases l with
  | nil => simp [expectChar] at h
  | cons x xs =>
    by_cases hx : x = c
    · have he : expectChar c (x :: xs) = some xs := by simp [expectChar, hx]
      rw [he] at h
      obtain rfl : xs = r := by simpa using h
      exact ⟨[x], rfl⟩
    · have he : expectChar c (x :: xs) = none := by simp [expectChar, hx]
      rw [he] at h
      exact Option.noConfusion h

theorem expectCI_suffix {p : List Char} {l r : List Char}
    (h : expectCI p l = some r) : r <:+ l := by
  induction p generalizing l with
  | nil => cases h; exact List.suffix_rfl
  | cons q qs ih =>
    cases l with
    | nil => simp [expectCI] at h
    | cons x xs =>
      unfold expectCI at h
      split at h
      · exact (ih h).trans ⟨[x], rfl⟩
      · exact Option.noConfusion h

theorem dropWhile_suffix' (p : Char → Bool) (l : List Char) :
    l.dropWhile p <:+ l := by
  induction l with
  | nil => exact List.suffix_rfl
  | cons a l ih =>
    by_cases h : p a
    · simpa [List.dropWhile, h] using ih.trans ⟨[a], rfl⟩
    · simp [List.dropWhile, h]

theorem getLast_singleton_suffix {l : List Char} {c : Char}
    (h : l.getLast? = some c) : [c] <:+ l := by
  induction l with
  | nil => simp at h
  | cons a l ih =>
    cases l with
    | nil => simp at h; subst h; exact List.suffix_rfl
    | cons b t =>
      rw [List.getLast?_cons_cons] at h
      exact (ih h).trans ⟨[a], rfl⟩

theorem head?_dropWhile_not' {p : Char → Bool} {l : List Char} {c : Char}
    (h : (l.dropWhile p).head? = some c) : p c = false := by
  have hx := List.head?_dropWhile_not p l
  rw [h] at hx
  exact hx

theorem parseDatePart_suffix {cs d r : List Char}
    (h : parseDatePart cs = some (d, r)) : r <:+ cs := by
  unfold parseDatePart at h
  split at h
  · exact Option.noConfusion h
  · cases h2 : expectChar '/' (cs.dropWhile isDig) with
    | none => simp [h2] at h
    | some r2 =>
      simp only [h2] at h
      split at h
      · exact Option.noConfusion h
      · cases h4 : expectChar '/' (r2.dropWhile isDig) with
        | none => simp [h4] at h
        | some r4 =>
          simp only [h4] at h
          split at h
          · exact Option.noConfusion h
          · obtain ⟨-, rfl⟩ : _ ∧ r4.dropWhile isDig = r := by simpa using h
            exact ((((dropWhile_suffix' isDig r4).trans
              (expectChar_suffix h4)).trans
                (dropWhile_suffix' isDig r2)).trans
                  (expectChar_suffix h2)).trans (dropWhile_suffix' isDig cs)

theorem parseTimePart_suffix {cs d r : List Char}
    (h : parseTimePart cs = some (d, r)) : r <:+ cs := by
  unfold parseTimePart at h
  split at h
  · exact Option.noConfusion h
  · cases h2 : expectChar ':' (cs.dropWhile isDig) with
    | none => simp [h2] at h
    | some r8 =>
      simp only [h2] at h
      split at h
      · exact Option.noConfusion h
      · cases h4 : expectChar ':' (r8.dropWhile isDig) with
        | none => simp [h4] at h
        | some r10 =>
          simp only [h4] at h
          split at h
          · exact Option.noConfusion h
          · obtain ⟨-, rfl⟩ : _ ∧ r10.dropWhile isDig = r := by simpa using h
            exact ((((dropWhile_suffix' isDig r10).trans
              (expectChar_suffix h4)).trans
                (dropWhile_suffix' isDig r8)).trans
                  (expectChar_suffix h2)).trans (dropWhile_suffix' isDig cs)

theorem parseWsPlus_suffix {cs w r : List Char}
    (h : parseWsPlus cs = some (w, r)) : r <:+ cs := by
  unfold parseWsPlus at h
  split at h
  · exact Option.noConfusion h
  · obtain ⟨-, rfl⟩ : _ ∧ cs.dropWhile jsWs = r := by simpa using h
    exact dropWhile_suffix' jsWs cs

theorem parseAmPm_suffix {cs a r : List Char}
    (h : parseAmPm cs = some (a, r)) : r <:+ cs := by
  cases cs with
  | nil => simp [parseAmPm] at h
  | cons x xs =>
    cases xs with
    | nil => simp [parseAmPm] at h
    | cons y ys =>
      by_cases hc : ((x = 'A' || x = 'a' || x = 'P' || x = 'p')
          && (y = 'M' || y = 'm')) = true
      · simp only [parseAmPm] at h
        rw [if_pos hc] at h
        obtain ⟨-, rfl⟩ : [x, y] = a ∧ ys = r := by simpa using h
        exact ⟨[x, y], rfl⟩
      · simp only [parseAmPm] at h
        rw [if_neg hc] at h
        exact Option.noConfusion h

theorem parseTailMsg_msg {cs msg : List Char}
    (h : parseTailMsg cs = some msg) : msg ≠ [] ∧ msg <:+ cs := by
  unfold parseTailMsg at h
  cases h1 : expectChar '-' (cs.dropWhile jsWs) with
  | none => simp [h1] at h
  | some r16 =>
    simp only [h1] at h
    cases h2 : expectCI "ERROR:".data (r16.dropWhile jsWs) with
    | none => simp [h2] at h
    | some r18 =>
      simp only [h2] at h
      have hbase : r18 <:+ cs :=
        (((expectCI_suffix h2).trans (dropWhile_suffix' jsWs r16)).trans
          (expectChar_suffix h1)).trans (dropWhile_suffix' jsWs cs)
      cases hd : r18.dropWhile jsWs with
      | nil =>
        simp only [hd] at h
        cases hg : (r18.takeWhile jsWs).getLast? with
        | none => simp [hg] at h
        | some c =>
          simp only [hg] at h
          obtain rfl : [c] = msg := by simpa using h
          refine ⟨by simp, ?_⟩
          have htk : r18.takeWhile jsWs = r18 := by
            have hta := List.takeWhile_append_dropWhile (p := jsWs) (l := r18)
            rw [hd, List.append_nil] at hta
            exact hta
          have hsfx : r18.takeWhile jsWs <:+ r18 := by
            rw [htk]
          exact ((getLast_singleton_suffix hg).trans hsfx).trans hbase
      | cons x xs =>
        simp only [hd] at h
        obtain rfl : x :: xs = msg := by simpa using h
        exact ⟨by simp, (hd ▸ dropWhile_suffix' jsWs r18).trans hbase⟩

theorem parseTsErr_msg {cs ts msg : List Char}
    (h : parseTsErr cs = some (ts, msg)) : msg ≠ [] ∧ msg <:+ cs := by
  unfold parseTsErr at h
  cases h1 : parseDatePart cs with
  | none => simp [h1] at h
  | some p1 =>
    obtain ⟨date, r1⟩ := p1
    simp only [h1] at h
    cases h2 : parseWsPlus r1 with
    | none => simp [h2] at h
    | some p2 =>
      obtain ⟨w1, r2⟩ := p2
      simp only [h2] at h
      cases h3 : parseTimePart r2 with
      | none => simp [h3] at h
      | some p3 =>
        obtain ⟨time, r3⟩ := p3
        simp only [h3] at h
        cases h4 : parseWsPlus r3 with
        | none => simp [h4] at h
        | some p4 =>
          obtain ⟨w2, r4⟩ := p4
          simp only [h4] at h
          cases h5 : parseAmPm r4 with
          | none => simp [h5] at h
          | some p5 =>
            obtain ⟨ap, r5⟩ := p5
            simp only [h5] at h
            cases h6 : parseTailMsg r5 with
            | none => simp [h6] at h
            | some msg' =>
              simp only [h6] at h
              obtain ⟨-, rfl⟩ : _ ∧ msg' = msg := by simpa using h
              obtain ⟨hne, hs⟩ := parseTailMsg_msg h6
              exact ⟨hne, ((((hs.trans (parseAmPm_suffix h5)).trans
                (parseWsPlus_suffix h4)).trans
                  (parseTimePart_suffix h3)).trans
                    (parseWsPlus_suffix h2)).trans (parseDatePart_suffix h1)⟩

theorem takeWhile_pos_head {p : Char → Bool} {l : List Char}
    (h : 1 ≤ (l.takeWhile p).length) : ∃ c t, l = c :: t ∧ p c = true := by
  cases l with
  | nil => simp [List.takeWhile] at h
  | cons a t =>
    by_cases hp : p a
    · exact ⟨a, t, rfl, hp⟩
    · rw [List.takeWhile_cons] at h
      simp [hp] at h

theorem parseDatePart_head {cs d r : List Char}
    (h : parseDatePart cs = some (d, r)) :
    ∃ c t, cs = c :: t ∧ isDig c = true := by
  by_cases hl : 1 ≤ (cs.takeWhile isDig).length
  · exact takeWhile_pos_head hl
  · exfalso
    unfold parseDatePart at h
    rw [if_pos (by simp only [Bool.or_eq_true, decide_eq_true_eq]; omega)] at h
    exact Option.noConfusion h

theorem parseTsErr_head_digit {cs ts msg : List Char}
    (h : parseTsErr cs = some (ts, msg)) :
    ∃ c t, cs = c :: t ∧ isDig c = true := by
  unfold parseTsErr at h
  cases h1 : parseDatePart cs with
  | none => simp [h1] at h
  | some p1 =>
    obtain ⟨date, r1⟩ := p1
    exact parseDatePart_head h1

theorem matchTs_msg {cs ts msg : List Char}
    (h : matchTs cs = some (ts, msg)) : msg ≠ [] ∧ msg <:+ cs := by
  induction cs with
  | nil =>
    unfold matchTs at h
    cases hp : parseTsErr [] with
    | some p =>
      obtain ⟨ts', msg'⟩ := p
      obtain ⟨c, t, hct, -⟩ := parseTsErr_head_digit hp
      exact absurd hct (by simp)
    | none => simp [hp] at h
  | cons c rest ih =>
    unfold matchTs at h
    cases hp : parseTsErr (c :: rest) with
    | some p =>
      obtain ⟨ts', msg'⟩ := p
      simp only [hp] at h
      obtain ⟨rfl, rfl⟩ : ts' = ts ∧ msg' = msg := by simpa using h
      exact parseTsErr_msg hp
    | none =>
      simp only [hp] at h
      obtain ⟨hne, hs⟩ := ih h
      exact ⟨hne, hs.trans ⟨[c], rfl⟩⟩

theorem matchTs_digit {cs ts msg : List Char}
    (h : matchTs cs = some (ts, msg)) : ∃ c ∈ cs, isDig c = true := by
  induction cs with
  | nil =>
    unfold matchTs at h
    cases hp : parseTsErr [] with
    | some p =>
      obtain ⟨ts', msg'⟩ := p
      obtain ⟨c, t, hct, -⟩ := parseTsErr_head_digit hp
      exact absurd hct (by simp)
    | none => simp [hp] at h
  | cons c rest ih =>
    unfold matchTs at h
    cases hp : parseTsErr (c :: rest) with
    | some p =>
      obtain ⟨ts', msg'⟩ := p
      obtain ⟨c', t', hct, hdig⟩ := parseTsErr_head_digit hp
      injection hct with hc ht
      exact ⟨c, List.mem_cons_self c rest, by rw [hc]; exact hdig⟩
    | none =>
      simp only [hp] at h
      obtain ⟨c', hc', hdig⟩ := ih h
      exact ⟨c', List.mem_cons_of_mem c hc', hdig⟩

end BongoBridge

namespace BongoBridge

/-! ## Lemmas about trimmed lines and the scan loop -/

theorem trimChars_getLast_not_ws {x : List Char} {c : Char}
    (h : (trimChars x).getLast? = some c) : jsWs c = false := by
  unfold trimChars at h
  rw [List.getLast?_reverse] at h
  exact head?_dropWhile_not' h

theorem trimChars_ne_nil_of_mem {l : List Char} (c : Char) (hc : c ∈ l)
    (hw : jsWs c = false) : trimChars l ≠ [] := by
  intro h
  have hh := trimChars_eq_nil_iff.1 h c hc
  simp [hw] at hh

theorem trim_ne_nil_of_getLast {l : List Char} (hne : l ≠ [])
    (hlast : ∀ c, l.getLast? = some c → jsWs c = false) : trimChars l ≠ [] := by
  have hsome := List.getLast?_eq_getLast_of_ne_nil hne
  exact trimChars_ne_nil_of_mem _ (List.getLast_mem hne) (hlast _ hsome)

theorem head?_mem' {l : List Char} {c : Char} (h : l.head? = some c) :
    c ∈ l := by
  cases l with
  | nil => simp at h
  | cons a t =>
    simp at h
    subst h
    exact List.mem_cons_self a t

theorem trim_ne_nil_of_head {l : List Char} {c : Char}
    (hh : l.head? = some c) (hw : jsWs c = false) : trimChars l ≠ [] :=
  trimChars_ne_nil_of_mem c (head?_mem' hh) hw

theorem head?_take' {j : ℕ} {r : List Char} (hj : j ≠ 0) :
    (r.take j).head? = r.head? := by
  cases r with
  | nil => simp
  | cons a t =>
    cases j with
    | zero => exact absurd rfl hj
    | succ j => simp [List.take_succ_cons]

theorem mem_procLines {cs : List Char} {l : List Char}
    (hl : l ∈ procLines cs) : l ≠ [] ∧ ∃ x, l = trimChars x := by
  unfold procLines at hl
  rw [List.mem_filter] at hl
  obtain ⟨hm, hne⟩ := hl
  rw [List.mem_map] at hm
  obtain ⟨x, hx, rfl⟩ := hm
  have hnn : trimChars x ≠ [] := by
    intro hnil
    rw [hnil] at hne
    simp at hne
  exact ⟨hnn, x, rfl⟩

theorem procLines_good {cs : List Char} {l : List Char}
    (hl : l ∈ procLines cs) :
    l ≠ [] ∧ ∀ c, l.getLast? = some c → jsWs c = false := by
  obtain ⟨hne, x, rfl⟩ := mem_procLines hl
  exact ⟨hne, fun c hc => trimChars_getLast_not_ws hc⟩

theorem procLines_of_allWs {cs : List Char} (h : ∀ c ∈ cs, jsWs c) :
    procLines cs = [] := by
  unfold procLines
  rw [List.filter_eq_nil_iff]
  intro a ha
  rw [List.mem_map] at ha
  obtain ⟨x, hx, rfl⟩ := ha
  have hx0 : trimChars x = [] :=
    trimChars_eq_nil_iff.2 (fun c hc => h c (mem_of_mem_splitLines hx c hc))
  simp [hx0]

theorem marker_trim_ne_nil {cs : List Char} {i : ℕ}
    (h : (procLines cs).findIdx? isMarkerLine = some i) :
    trimChars cs ≠ [] := by
  intro hnil
  rw [procLines_of_allWs (trimChars_eq_nil_iff.1 hnil)] at h
  exact Option.noConfusion h

theorem matchTs_trim_ne_nil {line ts msg : List Char}
    (hm : matchTs line = some (ts, msg)) (hne : line ≠ [])
    (hlast : ∀ c, line.getLast? = some c → jsWs c = false) :
    trimChars msg ≠ [] := by
  obtain ⟨hmne, hsuf⟩ := matchTs_msg hm
  obtain ⟨pre, hpre⟩ := hsuf
  have hg : line.getLast? = msg.getLast? := by
    rw [← hpre]
    exact List.getLast?_append_of_ne_nil pre hmne
  have hsome := List.getLast?_eq_getLast_of_ne_nil hmne
  have hw : jsWs (msg.getLast hmne) = false := hlast _ (by rw [hg, hsome])
  exact trimChars_ne_nil_of_mem _ (List.getLast_mem hmne) hw

theorem dropWhile_trim_ne_nil {X : List Char} (h : X.dropWhile jsWs ≠ []) :
    trimChars (X.dropWhile jsWs) ≠ [] := by
  cases hP : X.dropWhile jsWs with
  | nil => exact absurd hP h
  | cons c t =>
    have hw : jsWs c = false := head?_dropWhile_not' (by rw [hP]; rfl)
    exact trimChars_ne_nil_of_mem c (List.mem_cons_self c t) hw

theorem take_dropWhile_trim_ne_nil {X : List Char} {j : ℕ}
    (h : (X.dropWhile jsWs).take j ≠ []) :
    trimChars ((X.dropWhile jsWs).take j) ≠ [] := by
  have hj : j ≠ 0 := by
    rintro rfl
    simp at h
  cases hP : X.dropWhile jsWs with
  | nil => rw [hP] at h; simp at h
  | cons c t =>
    have hw : jsWs c = false := head?_dropWhile_not' (by rw [hP]; rfl)
    have hh : ((c :: t).take j).head? = some c := by
      rw [head?_take' hj]
      rfl
    exact trim_ne_nil_of_head hh hw

theorem errorPartOf_trim_ne_nil {l : List Char} (hne : l ≠ [])
    (hlast : ∀ c, l.getLast? = some c → jsWs c = false) :
    trimChars (errorPartOf l) ≠ [] := by
  have hl : trimChars l ≠ [] := trim_ne_nil_of_getLast hne hlast
  unfold errorPartOf
  cases hsp : splitSecondPart l with
  | none => exact hl
  | some p =>
    show trimChars (if p.isEmpty then l else p) ≠ []
    by_cases hpe : p.isEmpty = true
    · rw [if_pos hpe]
      exact hl
    · rw [if_neg hpe]
      have hpne : p ≠ [] := fun hnil => hpe (by rw [hnil]; rfl)
      unfold splitSecondPart at hsp
      cases hfi : findErrIdx l with
      | none => rw [hfi] at hsp; exact Option.noConfusion hsp
      | some i =>
        simp only [hfi] at hsp
        cases hfj : findErrIdx ((l.drop (i + 6)).dropWhile jsWs) with
        | none =>
          simp only [hfj] at hsp
          obtain rfl : (l.drop (i + 6)).dropWhile jsWs = p := by simpa using hsp
          exact dropWhile_trim_ne_nil hpne
        | some j =>
          simp only [hfj] at hsp
          obtain rfl : ((l.drop (i + 6)).dropWhile jsWs).take j = p := by
            simpa using hsp
          exact take_dropWhile_trim_ne_nil hpne

theorem isSkip_false_of_matchTs {line ts msg : List Char}
    (hline : matchTs line = some (ts, msg)) : isSkip line = false := by
  obtain ⟨c, hc, hdig⟩ := matchTs_digit hline
  by_contra hsk
  have hall : isSkip line = true := by simpa using hsk
  unfold isSkip at hall
  have hcd : c = '-' := by simpa using List.all_eq_true.1 hall c hc
  rw [hcd] at hdig
  simp [isDig] at hdig

theorem scanExec_found {line ts msg : List Char}
    (hline : matchTs line = some (ts, msg)) :
    ∀ (pre : List (List Char)), (∀ l ∈ pre, matchTs l = none) →
      ∀ acc rest, scanExec acc (pre ++ line :: rest) = .found ts msg := by
  have hskip := isSkip_false_of_matchTs hline
  intro pre
  induction pre with
  | nil =>
    intro _ acc rest
    simp [scanExec, hskip, hline]
  | cons q pre ih =>
    intro hpre acc rest
    have hq : matchTs q = none := hpre q (List.mem_cons_self q pre)
    have hpre' : ∀ l ∈ pre, matchTs l = none :=
      fun l hl => hpre l (List.mem_cons_of_mem _ hl)
    rw [List.cons_append]
    by_cases hqs : isSkip q = true
    · simp only [scanExec, hqs, if_true]
      exact ih hpre' acc rest
    · have hqs' : isSkip q = false := by simpa using hqs
      simp only [scanExec, hqs', Bool.false_eq_true, if_false, hq]
      by_cases hcq : containsErrSub q = true
      · rw [if_pos hcq]
        exact ih hpre' _ rest
      · rw [if_neg hcq]
        exact ih hpre' acc rest

theorem scanExec_found_exists {ts msg : List Char} :
    ∀ (ls : List (List Char)) (acc : List (List Char)),
      scanExec acc ls = .found ts msg →
      ∃ l ∈ ls, matchTs l = some (ts, msg) := by
  intro ls
  induction ls with
  | nil =>
    intro acc h
    simp [scanExec] at h
  | cons l ls ih =>
    intro acc h
    simp only [scanExec] at h
    by_cases hs : isSkip l = true
    · rw [if_pos hs] at h
      obtain ⟨l', hl', hm⟩ := ih acc h
      exact ⟨l', List.mem_cons_of_mem _ hl', hm⟩
    · rw [if_neg hs] at h
      cases hm : matchTs l with
      | some p =>
        obtain ⟨ts', msg'⟩ := p
        simp only [hm] at h
        obtain ⟨rfl, rfl⟩ : ts' = ts ∧ msg' = msg := by
          cases h
          exact ⟨rfl, rfl⟩
        exact ⟨l, List.mem_cons_self l ls, hm⟩
      | none =>
        simp only [hm] at h
        by_cases hc : containsErrSub l = true
        · rw [if_pos hc] at h
          obtain ⟨l', hl', hmm⟩ := ih _ h
          exact ⟨l', List.mem_cons_of_mem _ hl', hmm⟩
        · rw [if_neg hc] at h
          obtain ⟨l', hl', hmm⟩ := ih acc h
          exact ⟨l', List.mem_cons_of_mem _ hl', hmm⟩

theorem scanExec_fallback {ls : List (List Char)}
    (hn : ∀ l ∈ ls, matchTs l = none) :
    ∀ acc, scanExec acc ls = .fallback (acc ++ ls.filterMap fragScanOf) := by
  induction ls with
  | nil => intro acc; simp [scanExec]
  | cons l ls ih =>
    intro acc
    have hl : matchTs l = none := hn l (List.mem_cons_self l ls)
    have hn' : ∀ x ∈ ls, matchTs x = none :=
      fun x hx => hn x (List.mem_cons_of_mem _ hx)
    by_cases hs : isSkip l = true
    · have hf : fragScanOf l = none := by simp [fragScanOf, hs]
      calc scanExec acc (l :: ls) = scanExec acc ls := by
            simp [scanExec, hs]
        _ = .fallback (acc ++ ls.filterMap fragScanOf) := ih hn' acc
        _ = .fallback (acc ++ (l :: ls).filterMap fragScanOf) := by
            simp [List.filterMap_cons, hf]
    · have hs' : isSkip l = false := by simpa using hs
      by_cases hc : containsErrSub l = true
      · have hf : fragScanOf l = some (trimChars (errorPartOf l)) := by
          simp [fragScanOf, hs', hc]
        calc scanExec acc (l :: ls)
            = scanExec (acc ++ [trimChars (errorPartOf l)]) ls := by
              simp [scanExec, hs', hl, hc]
          _ = .fallback ((acc ++ [trimChars (errorPartOf l)])
                ++ ls.filterMap fragScanOf) := ih hn' _
          _ = .fallback (acc ++ (l :: ls).filterMap fragScanOf) := by
              simp [List.filterMap_cons, hf]
      · have hc' : containsErrSub l = false := by simpa using hc
        have hf : fragScanOf l = none := by simp [fragScanOf, hs', hc']
        calc scanExec acc (l :: ls) = scanExec acc ls := by
              simp [scanExec, hs', hl, hc']
          _ = .fallback (acc ++ ls.filterMap fragScanOf) := ih hn' acc
          _ = .fallback (acc ++ (l :: ls).filterMap fragScanOf) := by
              simp [List.filterMap_cons, hf]

theorem scanExec_fallback_ne_nil {ls : List (List Char)}
    (hgood : ∀ l ∈ ls, l ≠ [] ∧ ∀ c, l.getLast? = some c → jsWs c = false) :
    ∀ acc out, (∀ f ∈ acc, f ≠ []) → scanExec acc ls = .fallback out →
      ∀ f ∈ out, f ≠ [] := by
  induction ls with
  | nil =>
    intro acc out hacc h
    obtain rfl : acc = out := by simpa [scanExec] using h
    exact hacc
  | cons l ls ih =>
    intro acc out hacc h
    have hgl := hgood l (List.mem_cons_self l ls)
    have hgood' : ∀ x ∈ ls, x ≠ [] ∧ ∀ c, x.getLast? = some c → jsWs c = false :=
      fun x hx => hgood x (List.mem_cons_of_mem _ hx)
    simp only [scanExec] at h
    by_cases hs : isSkip l = true
    · rw [if_pos hs] at h
      exact ih hgood' acc out hacc h
    · rw [if_neg hs] at h
      cases hm : matchTs l with
      | some p =>
        obtain ⟨ts, msg⟩ := p
        simp only [hm] at h
        exact ScanResult.noConfusion h
      | none =>
        simp only [hm] at h
        by_cases hc : containsErrSub l = true
        · rw [if_pos hc] at h
          refine ih hgood' _ out ?_ h
          intro f hf
          rcases List.mem_append.1 hf with hf | hf
          · exact hacc f hf
          · simp at hf
            subst hf
            exact errorPartOf_trim_ne_nil hgl.1 hgl.2
        · rw [if_neg hc] at h
          exact ih hgood' acc out hacc h

theorem joinSep_ne_nil {sep f : List Char} {fs : List (List Char)}
    (hf : f ≠ []) : joinSep sep (f :: fs) ≠ [] := by
  cases fs with
  | nil => simpa [joinSep] using hf
  | cons g gs => simp [joinSep, List.append_eq_nil, hf]

theorem mk_ne_empty {l : List Char} (h : l ≠ []) : String.mk l ≠ "" :=
  fun he => h (congrArg String.data he)

theorem jsOrS_ne_empty {a b : String} (hb : b ≠ "") : jsOrS a b ≠ "" := by
  unfold jsOrS
  split
  · exact hb
  · next hcond => exact hcond

end BongoBridge

namespace BongoBridge

/-! ## Claim C5 — first-match-wins timestamped ERROR extraction -/

/-- C5: when the lines after the `Execution Log` marker split as
`pre ++ line :: rest` with no line of `pre` matching the timestamp pattern
and `line` matching it with captures `ts` and `msg`, the decoder returns the
first line's timestamp and trimmed message (first match wins; later
matching lines are ignored). -/
theorem parse_first_timestamp_match (s : String) (lix : ℕ)
    (pre : List (List Char)) (line : List Char) (rest : List (List Char))
    (ts msg : List Char)
    (hidx : (procLines s.data).findIdx? isMarkerLine = some lix)
    (hsplit : (procLines s.data).drop (lix + 1) = pre ++ line :: rest)
    (hpre : ∀ l ∈ pre, matchTs l = none)
    (hline : matchTs line = some (ts, msg)) :
    parseErrorFile s
      = ⟨String.mk ((procLines s.data).headD []), some (String.mk ts),
          String.mk (trimChars msg), s⟩ := by
  have h0 : trimChars s.data ≠ [] := marker_trim_ne_nil hidx
  unfold parseErrorFile
  rw [if_neg h0]
  simp only [hidx, hsplit, scanExec_found hline pre hpre [] rest]

/-- Witness for C5: the round-trip example
`I;Coffee\n---\nExecution Log\n---\n11/13/2025 1:53:34 AM - ERROR: X`
decodes to message `X` with timestamp `11/13/2025 1:53:34 AM`, and with a
second well-formatted ERROR line appended only the first one's message is
returned. -/
theorem parse_first_timestamp_match_witness :
    parseErrorFile
        "I;Coffee\n---\nExecution Log\n---\n11/13/2025 1:53:34 AM - ERROR: X"
      = ⟨"I;Coffee", some "11/13/2025 1:53:34 AM", "X",
          "I;Coffee\n---\nExecution Log\n---\n11/13/2025 1:53:34 AM - ERROR: X"⟩
    ∧ (parseErrorFile
        "I;Coffee\n---\nExecution Log\n---\n11/13/2025 1:53:34 AM - ERROR: X\n11/13/2025 2:00:00 AM - ERROR: Y").errorMessage
      = "X" :=
  ⟨(parse_first_timestamp_match
      "I;Coffee\n---\nExecution Log\n---\n11/13/2025 1:53:34 AM - ERROR: X"
      2 ["---".data] "11/13/2025 1:53:34 AM - ERROR: X".data []
      "11/13/2025 1:53:34 AM".data "X".data
      (by decide) (by decide) (by decide) (by decide)).trans (by decide),
   (congrArg ParsedError.errorMessage (parse_first_timestamp_match
      "I;Coffee\n---\nExecution Log\n---\n11/13/2025 1:53:34 AM - ERROR: X\n11/13/2025 2:00:00 AM - ERROR: Y"
      2 ["---".data] "11/13/2025 1:53:34 AM - ERROR: X".data
      ["11/13/2025 2:00:00 AM - ERROR: Y".data]
      "11/13/2025 1:53:34 AM".data "X".data
      (by decide) (by decide) (by decide) (by decide))).trans (by decide)⟩

/-! ## Claim C7 — fallback fragment collection -/

/-- Counterexample for C7 as stated: the containment test of the source is
`line.includes('ERROR:') || line.includes('error:')` — case-sensitive on
each literal — so the mixed-case line `Error: boom` is not collected as a
fragment (the claim's case-insensitive reading would yield `"boom"`); the
decoder instead falls through to the join-remaining-lines tier and returns
`"Error: boom"`. -/
theorem parse_fallback_case_counterexample :
    (parseErrorFile "cmd\nExecution Log\nError: boom").errorMessage
        = "Error: boom"
      ∧ (parseErrorFile "cmd\nExecution Log\nError: boom").errorMessage
        ≠ "boom" := by
  refine ⟨by decide, by decide⟩

/-- C7 (amended): for inputs with the marker and no line matching the exact
timestamp pattern, every non-separator line containing the literal
`ERROR:` or `error:` (these exact case variants only) contributes its trimmed
`split(/ERROR:\s*/i)[1] || line` segment as a fragment, scanning continues
to the end, and the message is all collected fragments joined with `"; "`. -/
theorem parse_fallback_fragments (s : String) (lix : ℕ)
    (hidx : (procLines s.data).findIdx? isMarkerLine = some lix)
    (hnone : ∀ l ∈ (procLines s.data).drop (lix + 1), matchTs l = none)
    (hfr : ((procLines s.data).drop (lix + 1)).filterMap fragScanOf ≠ []) :
    (parseErrorFile s).errorMessage
      = String.mk (joinSep "; ".data
          (((procLines s.data).drop (lix + 1)).filterMap fragScanOf)) := by
  have h0 : trimChars s.data ≠ [] := marker_trim_ne_nil hidx
  unfold parseErrorFile
  rw [if_neg h0]
  simp only [hidx, scanExec_fallback hnone, List.nil_append]
  have hcond :
      (!(((procLines s.data).drop (lix + 1)).filterMap fragScanOf).isEmpty)
        = true := by
    cases hx : ((procLines s.data).drop (lix + 1)).filterMap fragScanOf with
    | nil => exact absurd hx hfr
    | cons a t => rfl
  rw [if_pos hcond]

/-- Witness for C7: `cmd\nExecution Log\nfoo ERROR: a\nerror: b` collects
both fragments and yields `a; b`. -/
theorem parse_fallback_fragments_witness :
    (procLines "cmd\nExecution Log\nfoo ERROR: a\nerror: b".data).findIdx?
        isMarkerLine = some 1
      ∧ (parseErrorFile "cmd\nExecution Log\nfoo ERROR: a\nerror: b").errorMessage
        = "a; b" :=
  ⟨by decide,
   (parse_fallback_fragments "cmd\nExecution Log\nfoo ERROR: a\nerror: b" 1
      (by decide) (by decide) (by decide)).trans (by decide)⟩

/-! ## Claim C10 — total decoder invariant -/

theorem parse_raw_echo (s : String) : (parseErrorFile s).rawContent = s := by
  unfold parseErrorFile
  repeat' split
  all_goals rfl

theorem parse_msg_nonempty (s : String) :
    (parseErrorFile s).errorMessage ≠ "" := by
  unfold parseErrorFile
  split
  · exact (by decide : unknownError ≠ "")
  · split
    · exact jsOrS_ne_empty (by decide)
    · split
      · next ts msg hscan =>
        obtain ⟨l, hl, hm⟩ := scanExec_found_exists _ [] hscan
        have hg := procLines_good (List.mem_of_mem_drop hl)
        exact mk_ne_empty (matchTs_trim_ne_nil hm hg.1 hg.2)
      · next frags hscan =>
        split
        · next hfr =>
          have hne : frags ≠ [] := by
            intro hnil
            rw [hnil] at hfr
            simp at hfr
          obtain ⟨f, fs, rfl⟩ := List.exists_cons_of_ne_nil hne
          have hall : ∀ g ∈ f :: fs, g ≠ [] :=
            scanExec_fallback_ne_nil
              (fun l hl => procLines_good (List.mem_of_mem_drop hl)) [] _
              (by simp) hscan
          exact mk_ne_empty (joinSep_ne_nil (hall f (List.mem_cons_self f fs)))
        · exact jsOrS_ne_empty (by decide)

/-- C10: for every input string whatsoever, the decoder echoes the raw
content verbatim and never returns an empty error message. -/
theorem parse_total_invariant (s : String) :
    (parseErrorFile s).rawContent = s
      ∧ (parseErrorFile s).errorMessage ≠ "" :=
  ⟨parse_raw_echo s, parse_msg_nonempty s⟩

end BongoBridge
